import Mathlib

/-!
Verification of the bls-vess repository (a Verifiably Encrypted Signature
scheme on BLS12-381, Go, files `vess/vess.go` and one unnamed source file)
against its natural-language specification.

The specification places the elliptic-curve and pairing arithmetic engine
out of scope (it is an external "curve adapter", assumed correct), so the
groups G1, G2 and GT of the Type-3 pairing are embedded by their discrete
logarithms with respect to the fixed generators: a point is represented by
its exponent in `ZMod q`, where `q` is the (prime) order of the groups.
Scalar multiplication is field multiplication on exponents, point addition
is exponent addition, and the bilinear pairing `e(a·g1, b·g2) = gt^(a*b)`
is exponent multiplication into the target group, whose elements are
compared for equality only, exactly as in the source.  Distinct wrapper
types for G1, G2 and GT keep the group assignment of every argument
visible, which the specification singles out as security relevant.

The hash-to-G2 primitive (`bls.HashAndMapToSignature` in the source) is an
external collaborator as well and is modelled as an arbitrary function `H`
from messages to G2 points, shared by signer and verifier as the
specification requires.

The protocol operations `Sign`, `Encrypt`, `Verify` and `Adjudicate` are
translated from the inline code of the `Test` routine of `vess/vess.go`
(lines 77-146), which is where the repository actually performs them; the
exported package-level `Sign`/`Verify`/`Adjudicate` and the `VESS` methods
of the unnamed source file are empty stubs and are embedded separately as
state-preserving no-ops.
-/

/-- An element of BLS12-381's G1 group, represented by its discrete
logarithm with respect to the G1 generator. -/
structure G1Point (q : ℕ) where
  log : ZMod q
deriving DecidableEq

/-- An element of BLS12-381's G2 group, represented by its discrete
logarithm with respect to the G2 generator. -/
structure G2Point (q : ℕ) where
  log : ZMod q
deriving DecidableEq

/-- An element of the pairing target group GT, represented by its discrete
logarithm with respect to `e(g1, g2)`.  GT elements are only ever compared
for equality, as in the source. -/
structure GTElem (q : ℕ) where
  log : ZMod q
deriving DecidableEq

/-- The fixed G1 generator fetched by `gnark.Generators()` in `Init`. -/
def g1 (q : ℕ) : G1Point q := ⟨1⟩

/-- The fixed G2 generator fetched by `gnark.Generators()` in `Init`. -/
def g2 (q : ℕ) : G2Point q := ⟨1⟩

/-- `ScalarMultiplication` on G1: multiply the exponent by the scalar. -/
def G1Point.smul {q : ℕ} (P : G1Point q) (k : ZMod q) : G1Point q :=
  ⟨k * P.log⟩

/-- `ScalarMultiplication` on G2: multiply the exponent by the scalar. -/
def G2Point.smul {q : ℕ} (P : G2Point q) (k : ZMod q) : G2Point q :=
  ⟨k * P.log⟩

/-- `Add` on G2 (the source's G2Affine.Add): add exponents. -/
def G2Point.add {q : ℕ} (P Q : G2Point q) : G2Point q :=
  ⟨P.log + Q.log⟩

/-- `Sub` on G2 (the source's G2Affine.Sub): subtract exponents. -/
def G2Point.sub {q : ℕ} (P Q : G2Point q) : G2Point q :=
  ⟨P.log - Q.log⟩

/-- The identity element of G2. -/
def G2Point.zero (q : ℕ) : G2Point q := ⟨0⟩

/-- The bilinear pairing `gnark.Pair` restricted to a single (G1, G2)
pair, as the source always calls it: `e(a·g1, b·g2)` has exponent `a*b`
in GT. -/
def pairing {q : ℕ} (P : G1Point q) (Q : G2Point q) : GTElem q :=
  ⟨P.log * Q.log⟩

/-- `Mul` on GT (the source's `pair1.Mul(&pair1, &pair2)`): the target
group is written multiplicatively, so exponents add. -/
def GTElem.mul {q : ℕ} (a b : GTElem q) : GTElem q :=
  ⟨a.log + b.log⟩

/-- A verifiably-encrypted signature: the pair (omega, mu) of G2 points
printed as `VESig` by the source. -/
structure VESSignature (q : ℕ) where
  omega : G2Point q
  mu : G2Point q
deriving DecidableEq

/-- BLS signing, as performed in `Test` (vess.go lines 81-86): the herumi
signature of `msg` under secret `x` is `x · H(msg)` where `H` is the
hash-to-G2 primitive. -/
def Sign {q : ℕ} (H : String → G2Point q) (msg : String) (x : ZMod q) :
    G2Point q :=
  (H msg).smul x

/-- Signature encryption, as performed in `Test` (vess.go lines 89-109):
with randomizer `r`, set `mu = r·g2`, `sigma2 = r·adjPKeyG2`, and
`omega = sigma + sigma2`. -/
def Encrypt {q : ℕ} (sigma : G2Point q) (adjPKeyG2 : G2Point q)
    (r : ZMod q) : VESSignature q :=
  let mu := (g2 q).smul r
  let sigma2 := adjPKeyG2.smul r
  let omega := sigma.add sigma2
  ⟨omega, mu⟩

/-- Verification, as performed in `Test` (vess.go lines 113-139):
compute `pair0 = e(g1, omega)`, `h = H(msg)`, `pair1 = e(aPKey, h)`,
`pair2 = e(adjPKeyG1, mu)`, and accept iff `pair0 = pair1 * pair2`. -/
def Verify {q : ℕ} (H : String → G2Point q) (msg : String)
    (aPKey : G1Point q) (adjPKeyG1 : G1Point q) (vs : VESSignature q) :
    Bool :=
  let pair0 := pairing (g1 q) vs.omega
  let h := H msg
  let pair1 := pairing aPKey h
  let pair2 := pairing adjPKeyG1 vs.mu
  decide (pair0 = pair1.mul pair2)

/-- Adjudication, as performed in `Test` (vess.go lines 143-146):
`recovered = omega − adjSKey·mu`. -/
def Adjudicate {q : ℕ} (vs : VESSignature q) (adjSKey : ZMod q) :
    G2Point q :=
  vs.omega.sub (vs.mu.smul adjSKey)

/-- Claim C1 check on a tiny concrete instance. -/
example :
    Verify (q := 5) (fun _ => ⟨2⟩) "Hello, World" ((g1 5).smul 3)
      ((g1 5).smul 4)
      (Encrypt (Sign (fun _ => ⟨2⟩) "Hello, World" 3) ((g2 5).smul 4) 2) =
      true := by decide

/-- C1: Verify accepts an honestly encrypted signature, for every message,
signer keypair, adjudicator keypair and randomizer. -/
theorem verify_encrypt_sign_accepts (q : ℕ) (H : String → G2Point q)
    (msg : String) (signerSecret adjSecret r : ZMod q) :
    Verify H msg ((g1 q).smul signerSecret) ((g1 q).smul adjSecret)
      (Encrypt (Sign H msg signerSecret) ((g2 q).smul adjSecret) r) =
      true := by
  simp only [Verify, Encrypt, Sign, pairing, GTElem.mul, g1, g2,
    G1Point.smul, G2Point.smul, G2Point.add, decide_eq_true_eq,
    GTElem.mk.injEq]
  ring

/-- Characterization of Verify in exponent form, used by the tampering
results: the pairing equation holds iff the exponents match. -/
theorem verify_true_iff_log (q : ℕ) (H : String → G2Point q) (msg : String)
    (aPKey adjPKeyG1 : G1Point q) (vs : VESSignature q) :
    Verify H msg aPKey adjPKeyG1 vs = true ↔
      vs.omega.log = aPKey.log * (H msg).log + adjPKeyG1.log * vs.mu.log := by
  simp only [Verify, pairing, GTElem.mul, g1, decide_eq_true_eq,
    GTElem.mk.injEq, one_mul]

/-- C2: Adjudicate inverts Encrypt, recovering the original BLS signature
with exact point equality: the blinding term cancels. -/
theorem adjudicate_encrypt_recovers (q : ℕ) (H : String → G2Point q)
    (msg : String) (signerSecret adjSecret r : ZMod q) :
    Adjudicate (Encrypt (Sign H msg signerSecret) ((g2 q).smul adjSecret) r)
      adjSecret = Sign H msg signerSecret := by
  simp only [Adjudicate, Encrypt, Sign, g2, G2Point.smul, G2Point.add,
    G2Point.sub, G2Point.mk.injEq]
  ring

/-- C3: Verify computes h = HashToG2(message) and accepts exactly when
e(G1-generator, omega) == e(signerPublic, h) · e(adjudicatorPublicG1, mu),
with the G1 slots of the three pairings holding the G1 generator, the
signer public key and the adjudicator G1 public key, and the G2 slots
holding omega, h and mu; the group assignment is fixed by the types of
`pairing`. -/
theorem verify_is_exact_pairing_equation (q : ℕ) (H : String → G2Point q)
    (msg : String) (aPKey adjPKeyG1 : G1Point q) (vs : VESSignature q) :
    Verify H msg aPKey adjPKeyG1 vs = true ↔
      pairing (g1 q) vs.omega =
        (pairing aPKey (H msg)).mul (pairing adjPKeyG1 vs.mu) := by
  simp only [Verify, decide_eq_true_eq]

/-- C5: with an honestly constructed VESSignature (nondegenerate instance:
the message hash, the adjudicator secret and the randomizer are nonzero,
as fresh random values are with overwhelming probability), changing omega
or mu to any different point, or substituting any different signer or
adjudicator public key, makes Verify return false; Verify is a total
Bool-valued function, so a failed pairing equation is a boolean result,
never an exception. -/
theorem verify_rejects_tampering (q : ℕ) [Fact (Nat.Prime q)]
    (H : String → G2Point q) (msg : String)
    (signerSecret adjSecret r : ZMod q)
    (hh : (H msg).log ≠ 0) (ha : adjSecret ≠ 0) (hr : r ≠ 0) :
    (∀ omega2 : G2Point q,
      omega2 ≠ (Encrypt (Sign H msg signerSecret) ((g2 q).smul adjSecret)
        r).omega →
      Verify H msg ((g1 q).smul signerSecret) ((g1 q).smul adjSecret)
        ⟨omega2, (Encrypt (Sign H msg signerSecret)
          ((g2 q).smul adjSecret) r).mu⟩ = false) ∧
    (∀ mu2 : G2Point q,
      mu2 ≠ (Encrypt (Sign H msg signerSecret) ((g2 q).smul adjSecret)
        r).mu →
      Verify H msg ((g1 q).smul signerSecret) ((g1 q).smul adjSecret)
        ⟨(Encrypt (Sign H msg signerSecret) ((g2 q).smul adjSecret)
          r).omega, mu2⟩ = false) ∧
    (∀ pk2 : G1Point q, pk2 ≠ (g1 q).smul signerSecret →
      Verify H msg pk2 ((g1 q).smul adjSecret)
        (Encrypt (Sign H msg signerSecret) ((g2 q).smul adjSecret) r) =
        false) ∧
    (∀ apk2 : G1Point q, apk2 ≠ (g1 q).smul adjSecret →
      Verify H msg ((g1 q).smul signerSecret) apk2
        (Encrypt (Sign H msg signerSecret) ((g2 q).smul adjSecret) r) =
        false) := by
  have homega : (Encrypt (Sign H msg signerSecret) ((g2 q).smul adjSecret)
      r).omega = ⟨signerSecret * (H msg).log + r * (adjSecret * 1)⟩ := rfl
  have hmu : (Encrypt (Sign H msg signerSecret) ((g2 q).smul adjSecret)
      r).mu = ⟨r * 1⟩ := rfl
  refine ⟨fun omega2 hne => ?_, fun mu2 hne => ?_, fun pk2 hne => ?_,
    fun apk2 hne => ?_⟩
  · rw [Bool.eq_false_iff]
    intro htrue
    rw [verify_true_iff_log] at htrue
    apply hne
    rw [homega]
    cases omega2 with
    | mk l =>
      simp only [G2Point.mk.injEq]
      simp only [hmu, G1Point.smul, g1] at htrue
      linear_combination htrue
  · rw [Bool.eq_false_iff]
    intro htrue
    rw [verify_true_iff_log] at htrue
    apply hne
    rw [hmu]
    cases mu2 with
    | mk l =>
      simp only [G2Point.mk.injEq]
      simp only [homega, G1Point.smul, g1] at htrue
      have hcancel : adjSecret * l = adjSecret * (r * 1) := by
        linear_combination -htrue
      exact mul_left_cancel₀ ha hcancel
  · rw [Bool.eq_false_iff]
    intro htrue
    rw [verify_true_iff_log] at htrue
    apply hne
    cases pk2 with
    | mk l =>
      simp only [g1, G1Point.smul, G1Point.mk.injEq, mul_one]
      simp only [homega, hmu, G1Point.smul, g1, mul_one] at htrue
      have hcancel : l * (H msg).log = signerSecret * (H msg).log := by
        linear_combination -htrue
      exact mul_right_cancel₀ hh hcancel
  · rw [Bool.eq_false_iff]
    intro htrue
    rw [verify_true_iff_log] at htrue
    apply hne
    cases apk2 with
    | mk l =>
      simp only [g1, G1Point.smul, G1Point.mk.injEq, mul_one]
      simp only [homega, hmu, G1Point.smul, g1, mul_one] at htrue
      have hcancel : l * r = adjSecret * r := by
        linear_combination -htrue
      exact mul_right_cancel₀ hr hcancel

/-- Witness for C5 at a concrete instance over the prime field with
q = 3: a tampered omega, a tampered mu, a wrong signer key and a wrong
adjudicator key are each rejected. -/
theorem verify_rejects_tampering_witness :
    Verify (q := 3) (fun _ => ⟨2⟩) "m" ((g1 3).smul 1) ((g1 3).smul 1)
      ⟨⟨0⟩, (Encrypt (Sign (fun _ => ⟨2⟩) "m" 1) ((g2 3).smul 1) 2).mu⟩ =
      false ∧
    Verify (q := 3) (fun _ => ⟨2⟩) "m" ((g1 3).smul 1) ((g1 3).smul 1)
      ⟨(Encrypt (Sign (fun _ => ⟨2⟩) "m" 1) ((g2 3).smul 1) 2).omega,
        ⟨0⟩⟩ = false ∧
    Verify (q := 3) (fun _ => ⟨2⟩) "m" ⟨0⟩ ((g1 3).smul 1)
      (Encrypt (Sign (fun _ => ⟨2⟩) "m" 1) ((g2 3).smul 1) 2) = false ∧
    Verify (q := 3) (fun _ => ⟨2⟩) "m" ((g1 3).smul 1) ⟨0⟩
      (Encrypt (Sign (fun _ => ⟨2⟩) "m" 1) ((g2 3).smul 1) 2) = false := by
  have hh0 : ((⟨2⟩ : G2Point 3)).log ≠ 0 := by decide
  have ha0 : (1 : ZMod 3) ≠ 0 := by decide
  have hr0 : (2 : ZMod 3) ≠ 0 := by decide
  have h := verify_rejects_tampering 3 (fun _ => (⟨2⟩ : G2Point 3)) "m" 1 1 2
    hh0 ha0 hr0
  have hno : (⟨0⟩ : G2Point 3) ≠
      (Encrypt (Sign (fun _ => (⟨2⟩ : G2Point 3)) "m" 1)
        ((g2 3).smul 1) 2).omega := by decide
  have hnm : (⟨0⟩ : G2Point 3) ≠
      (Encrypt (Sign (fun _ => (⟨2⟩ : G2Point 3)) "m" 1)
        ((g2 3).smul 1) 2).mu := by decide
  have hnp : (⟨0⟩ : G1Point 3) ≠ (g1 3).smul 1 := by decide
  exact ⟨h.1 _ hno, h.2.1 _ hnm, h.2.2.1 _ hnp, h.2.2.2 _ hnp⟩

/-- The mutable local state of the `Test` routine around verification and
adjudication: the G2 variables `omega` and `mu` holding the
verifiably-encrypted signature. -/
structure TestState (q : ℕ) where
  omega : G2Point q
  mu : G2Point q
deriving DecidableEq

/-- The verification block of `Test` (vess.go lines 113-141), as a step on
the routine's state: it reads `omega` and `mu`, writes only its own local
pairing temporaries, and produces the boolean outcome of the pairing
comparison together with the untouched state. -/
def verifyStep {q : ℕ} (H : String → G2Point q) (msg : String)
    (aPKey adjPKeyG1 : G1Point q) (s : TestState q) : Bool × TestState q :=
  (Verify H msg aPKey adjPKeyG1 ⟨s.omega, s.mu⟩, s)

/-- The adjudication block of `Test` (vess.go lines 143-146), as a step on
the routine's state: `mu.ScalarMultiplication(&mu, &adjSKeyInt)` overwrites
`mu` in place with `adjSKey·mu`, and `omega.Sub(&omega, &mu)` then
overwrites `omega` in place with the recovered signature. -/
def adjudicateStep {q : ℕ} (s : TestState q) (adjSKey : ZMod q) :
    TestState q :=
  let mu2 := s.mu.smul adjSKey
  let omega2 := s.omega.sub mu2
  ⟨omega2, mu2⟩

/-- C8 counterexample: the adjudication code does not leave the mu field
of the VESSignature state unchanged.  Concretely over q = 5, starting from
omega with exponent 3 and mu with exponent 1 and adjudicator secret 2, the
mu variable afterwards holds exponent 2, not its original value 1. -/
theorem adjudicate_mutates_mu_counterexample :
    (adjudicateStep (q := 5) ⟨⟨3⟩, ⟨1⟩⟩ 2).mu ≠
      (TestState.mk (q := 5) ⟨3⟩ ⟨1⟩).mu := by decide

/-- C8 amended: Verify leaves the omega and mu fields exactly as they
were, while the in-place adjudication block overwrites mu with
adjudicatorSecret·mu and omega with the recovered signature; that
recovered signature still equals the pure Adjudicate of the original
field values (which is why `Test` saves copies of omega and mu before
adjudicating in the unnamed source file, lines 111-114). -/
theorem verify_preserves_adjudicate_clobbers (q : ℕ)
    (H : String → G2Point q) (msg : String) (aPKey adjPKeyG1 : G1Point q)
    (s : TestState q) (adjSKey : ZMod q) :
    (verifyStep H msg aPKey adjPKeyG1 s).2.omega = s.omega ∧
    (verifyStep H msg aPKey adjPKeyG1 s).2.mu = s.mu ∧
    (adjudicateStep s adjSKey).mu = s.mu.smul adjSKey ∧
    (adjudicateStep s adjSKey).omega = Adjudicate ⟨s.omega, s.mu⟩ adjSKey :=
  ⟨rfl, rfl, rfl, rfl⟩

/-- BLS signing threaded through an ambient state of any type `S` (for
example a random-number-generator state): the signing code of `Test`
(vess.go lines 81-86) consumes no randomness and performs no state
mutation, so the state passes through unchanged. -/
def SignWithState {q : ℕ} {S : Type} (st : S) (H : String → G2Point q)
    (msg : String) (x : ZMod q) : G2Point q × S :=
  ((H msg).smul x, st)

/-- C9: Sign is deterministic and side-effect-free: its output under any
two ambient states is the same signature signerSecret · HashToG2(message),
and the ambient state is returned unchanged. -/
theorem sign_deterministic_stateless (q : ℕ) (S : Type) (st st2 : S)
    (H : String → G2Point q) (msg : String) (x : ZMod q) :
    (SignWithState st H msg x).1 = (SignWithState st2 H msg x).1 ∧
    (SignWithState st H msg x).2 = st ∧
    (SignWithState st H msg x).1 = (H msg).smul x ∧
    (SignWithState st H msg x).1 = Sign H msg x :=
  ⟨rfl, rfl, rfl, rfl⟩

/-- The `VESS` struct of the unnamed source file: it carries the two fixed
generators fetched by `New`. -/
structure VESS (q : ℕ) where
  g1 : G1Point q
  g2 : G2Point q

/-- The exported package-level `Sign` of vess.go (lines 38-40): an empty
body, acting on any ambient program state as the identity. -/
def SignExported {S : Type} (s : S) : S := s

/-- The exported package-level `Verify` of vess.go (lines 42-44): an empty
body. -/
def VerifyExported {S : Type} (s : S) : S := s

/-- The exported package-level `Adjudicate` of vess.go (lines 46-48): an
empty body. -/
def AdjudicateExported {S : Type} (s : S) : S := s

/-- The `VESS.Sign` method of the unnamed source file (line 43): an empty
body. -/
def VESS.SignM {q : ℕ} {S : Type} (_ : VESS q) (s : S) : S := s

/-- The `VESS.Verify` method of the unnamed source file (line 45): an
empty body. -/
def VESS.VerifyM {q : ℕ} {S : Type} (_ : VESS q) (s : S) : S := s

/-- The `VESS.Adjudicate` method of the unnamed source file (line 47): an
empty body. -/
def VESS.AdjudicateM {q : ℕ} {S : Type} (_ : VESS q) (s : S) : S := s

/-- C10: the exported Sign, Verify and Adjudicate of the vess package,
both the package-level functions and the VESS methods, are no-ops: they
take no protocol inputs, return no protocol value, and leave every
ambient program state unchanged; the behaviours the specification
describes for them live only inside the monolithic Test routine. -/
theorem exported_operations_are_noops (q : ℕ) (S : Type) (s : S)
    (v : VESS q) :
    SignExported s = s ∧ VerifyExported s = s ∧ AdjudicateExported s = s ∧
    v.SignM s = s ∧ v.VerifyM s = s ∧ v.AdjudicateM s = s :=
  ⟨rfl, rfl, rfl, rfl, rfl, rfl⟩

/-- herumi's `bls.FrEvaluatePolynomial` as called by `Test` (unnamed
source file line 186): Horner evaluation of a coefficient list over the
scalar field, coefficient 0 being the constant term. -/
def FrEvaluatePolynomial {q : ℕ} (coeffs : List (ZMod q)) (x : ZMod q) :
    ZMod q :=
  coeffs.foldr (fun c acc => c + x * acc) 0

/-- Modelled from the spec: a Shamir share {index: positive integer in
1..m, value: the sharing polynomial evaluated at the index}.  The
repository's Test routine builds these inline (unnamed source file lines
158-188) only for threshold 3 of 10. -/
structure Share (q : ℕ) where
  index : ℕ
  value : ZMod q
deriving DecidableEq

/-- Modelled from the spec: `Split(secret, threshold n, totalShares m)`
with the n−1 random coefficients supplied as the list `randCoeffs` (the
randomness source is external): the sharing polynomial is
`secret :: randCoeffs` and share i, for i = 1..m, carries the polynomial
evaluated at i, exactly as the inline loops of the Test routine do
(unnamed source file lines 164-188). -/
def Split {q : ℕ} (secret : ZMod q) (randCoeffs : List (ZMod q)) (m : ℕ) :
    List (Share q) :=
  (List.range m).map (fun i =>
    ⟨i + 1, FrEvaluatePolynomial (secret :: randCoeffs) ((i + 1 : ℕ) : ZMod q)⟩)

/-- Modelled from the spec: the output of a shareholder's PartialDecrypt,
{index, value = mu · share.value}, a G2 point tagged with the share
index viewed in the scalar field (the Test routine computes these as
`bls.G2Mul(&res[i], &mub, &shares[i])`, unnamed source file lines
194-199). -/
structure AdjShare (q : ℕ) where
  index : ZMod q
  value : G2Point q
deriving DecidableEq

/-- Modelled from the spec: the threshold-layer error taxonomy relevant
to Reconstruct. -/
inductive ShareError where
  | InsufficientSharesError
  | InconsistentShareError
deriving DecidableEq

/-- Modelled from the spec: duplicate indices carrying different values
signal a faulty or malicious shareholder. -/
def hasInconsistent {q : ℕ} (l : List (AdjShare q)) : Bool :=
  l.any (fun e1 => l.any (fun e2 =>
    decide (e1.index = e2.index ∧ e1.value ≠ e2.value)))

/-- Modelled from the spec: the Lagrange basis coefficient at x = 0 for
the entry `e`, λ = Π over the other entries of x_j / (x_j − x_i). -/
def lagrangeCoeffAt {q : ℕ} (l : List (AdjShare q)) (e : AdjShare q) :
    ZMod q :=
  ((l.filter (fun e2 => decide (e2.index ≠ e.index))).map
    (fun e2 => e2.index * (e2.index - e.index)⁻¹)).prod

/-- Sum of a list of G2 points. -/
def pointListSum {q : ℕ} (l : List (G2Point q)) : G2Point q :=
  l.foldr G2Point.add (G2Point.zero q)

/-- Modelled from the spec: `Reconstruct(partials)` for threshold n
performs Lagrange interpolation in the exponent, Σ λ_i · value_i with
λ_i evaluated at x = 0; it fails with InconsistentShareError when
duplicate indices carry different values and with
InsufficientSharesError when fewer than n distinct indices are present.
(The repository's Test routine instead calls the external
`bls.G2LagrangeInterpolation` on the first 3 of 10 shares, unnamed
source file lines 201-210.) -/
def Reconstruct {q : ℕ} (n : ℕ) (entries : List (AdjShare q)) :
    Except ShareError (G2Point q) :=
  if hasInconsistent entries then .error .InconsistentShareError
  else if ((entries.map (fun e => e.index)).dedup).length < n then
    .error .InsufficientSharesError
  else
    .ok (pointListSum ((entries.dedup).map
      (fun e => e.value.smul (lagrangeCoeffAt (entries.dedup) e))))

/-- Modelled from the spec: `ThresholdAdjudicate(vesSignature, partials)`
is omega − Reconstruct(partials) (the Test routine performs the same
final subtraction with `bls.G2Sub`, unnamed source file lines 212-215). -/
def ThresholdAdjudicate {q : ℕ} (n : ℕ) (vs : VESSignature q)
    (entries : List (AdjShare q)) : Except ShareError (G2Point q) :=
  match Reconstruct n entries with
  | .ok point => .ok (vs.omega.sub point)
  | .error e => .error e

/-- With pairwise-distinct indices no inconsistency is flagged. -/
theorem hasInconsistent_eq_false {q : ℕ} (l : List (AdjShare q))
    (hnd : (l.map (fun e => e.index)).Nodup) :
    hasInconsistent l = false := by
  rw [Bool.eq_false_iff]
  intro htrue
  simp only [hasInconsistent, List.any_eq_true, decide_eq_true_eq] at htrue
  obtain ⟨e1, he1, e2, he2, heq, hne⟩ := htrue
  have : e1 = e2 := List.inj_on_of_nodup_map hnd he1 he2 heq
  exact hne (by rw [this])

/-- C6: Reconstruct fails closed: given fewer than n entries with
pairwise-distinct indices it returns InsufficientSharesError rather than
any group element, and given duplicate indices carrying different values
it returns InconsistentShareError. -/
theorem reconstruct_fails_closed (q n : ℕ) (entries : List (AdjShare q)) :
    ((entries.map (fun e => e.index)).Nodup → entries.length < n →
      Reconstruct n entries =
        Except.error ShareError.InsufficientSharesError) ∧
    (∀ e1, e1 ∈ entries → ∀ e2, e2 ∈ entries → e1.index = e2.index →
      e1.value ≠ e2.value →
      Reconstruct n entries =
        Except.error ShareError.InconsistentShareError) := by
  constructor
  · intro hnd hlt
    have h1 := hasInconsistent_eq_false entries hnd
    have h2 : ((entries.map (fun e => e.index)).dedup).length < n := by
      rw [List.dedup_eq_self.mpr hnd, List.length_map]
      exact hlt
    simp [Reconstruct, h1, h2]
  · intro e1 he1 e2 he2 heq hne
    have h1 : hasInconsistent entries = true := by
      simp only [hasInconsistent, List.any_eq_true, decide_eq_true_eq]
      exact ⟨e1, he1, e2, he2, heq, hne⟩
    simp [Reconstruct, h1]

/-- Witness for C6: with threshold 2, a single entry (one fewer than the
threshold, distinct indices) yields InsufficientSharesError, and two
entries sharing index 1 with different values yield
InconsistentShareError. -/
theorem reconstruct_fails_closed_witness :
    Reconstruct (q := 5) 2 [⟨1, ⟨2⟩⟩] =
      Except.error ShareError.InsufficientSharesError ∧
    Reconstruct (q := 5) 2 [⟨1, ⟨2⟩⟩, ⟨1, ⟨3⟩⟩] =
      Except.error ShareError.InconsistentShareError := by
  have hnd : (([⟨1, ⟨2⟩⟩] : List (AdjShare 5)).map
      (fun e => e.index)).Nodup := by decide
  have hlt : ([⟨1, ⟨2⟩⟩] : List (AdjShare 5)).length < 2 := by decide
  have hm1 : (⟨1, ⟨2⟩⟩ : AdjShare 5) ∈
      ([⟨1, ⟨2⟩⟩, ⟨1, ⟨3⟩⟩] : List (AdjShare 5)) := by decide
  have hm2 : (⟨1, ⟨3⟩⟩ : AdjShare 5) ∈
      ([⟨1, ⟨2⟩⟩, ⟨1, ⟨3⟩⟩] : List (AdjShare 5)) := by decide
  have hiq : (⟨1, ⟨2⟩⟩ : AdjShare 5).index = (⟨1, ⟨3⟩⟩ : AdjShare 5).index :=
    by decide
  have hvq : (⟨1, ⟨2⟩⟩ : AdjShare 5).value ≠ (⟨1, ⟨3⟩⟩ : AdjShare 5).value :=
    by decide
  exact ⟨(reconstruct_fails_closed 5 2 [⟨1, ⟨2⟩⟩]).1 hnd hlt,
    (reconstruct_fails_closed 5 2 [⟨1, ⟨2⟩⟩, ⟨1, ⟨3⟩⟩]).2 _ hm1 _ hm2 hiq hvq⟩

/-- Two G2 points with the same exponent are equal. -/
theorem G2Point.ext_log {q : ℕ} (P Q : G2Point q) (h : P.log = Q.log) :
    P = Q := by
  cases P
  cases Q
  simpa using h

/-- The exponent of a sum of G2 points is the sum of the exponents. -/
theorem pointListSum_log {q : ℕ} (l : List (G2Point q)) :
    (pointListSum l).log = (l.map G2Point.log).sum := by
  induction l with
  | nil => rfl
  | cons P t ih =>
    rw [show pointListSum (P :: t) = P.add (pointListSum t) from rfl]
    simp [G2Point.add, ih]

/-- Filtering a mapped list is mapping the filtered list. -/
theorem filter_of_map {α β : Type} (f : α → β) (p : β → Bool)
    (l : List α) :
    (l.map f).filter p = (l.filter (fun a => p (f a))).map f := by
  induction l with
  | nil => rfl
  | cons a t ih =>
    by_cases h : p (f a)
    · simp [List.filter_cons, h, ih]
    · simp [List.filter_cons, h, ih]

/-- The polynomial with the given coefficient list, constant term
first.  It exists only to connect the executable Horner evaluation to
Mathlib's polynomial theory, so it need not be executable itself. -/
noncomputable def listToPoly {q : ℕ} (l : List (ZMod q)) : Polynomial (ZMod q) :=
  l.foldr (fun c acc => Polynomial.C c + Polynomial.X * acc) 0

theorem listToPoly_cons {q : ℕ} (c : ZMod q) (t : List (ZMod q)) :
    listToPoly (c :: t) = Polynomial.C c + Polynomial.X * listToPoly t :=
  rfl

/-- Horner evaluation agrees with polynomial evaluation. -/
theorem listToPoly_eval {q : ℕ} (l : List (ZMod q)) (x : ZMod q) :
    (listToPoly l).eval x = FrEvaluatePolynomial l x := by
  induction l with
  | nil => simp [listToPoly, FrEvaluatePolynomial]
  | cons c t ih =>
    rw [listToPoly_cons, Polynomial.eval_add, Polynomial.eval_C,
      Polynomial.eval_mul, Polynomial.eval_X, ih]
    rfl

/-- The constant term of the sharing polynomial is its value at 0. -/
theorem listToPoly_eval_zero {q : ℕ} (c : ZMod q) (t : List (ZMod q)) :
    (listToPoly (c :: t)).eval 0 = c := by
  rw [listToPoly_cons]
  simp

/-- The coefficient-list polynomial has degree below the list length. -/
theorem listToPoly_degree_lt {q : ℕ} [Fact (Nat.Prime q)]
    (l : List (ZMod q)) :
    (listToPoly l).degree < (l.length : WithBot ℕ) := by
  induction l with
  | nil =>
    simp only [listToPoly, List.foldr_nil, Polynomial.degree_zero,
      List.length_nil, Nat.cast_zero]
    exact bot_lt_iff_ne_bot.mpr (by simp)
  | cons c t ih =>
    have h1 : (Polynomial.C c).degree < ((t.length + 1 : ℕ) : WithBot ℕ) := by
      refine lt_of_le_of_lt Polynomial.degree_C_le ?_
      exact_mod_cast Nat.succ_pos t.length
    have h2 : (Polynomial.X * listToPoly t).degree <
        ((t.length + 1 : ℕ) : WithBot ℕ) := by
      refine lt_of_le_of_lt (Polynomial.degree_mul_le _ _) ?_
      rw [Polynomial.degree_X]
      have hlt : (1 : WithBot ℕ) + (listToPoly t).degree <
          1 + (t.length : WithBot ℕ) :=
        WithBot.add_lt_add_left (by simp) ih
      refine lt_of_lt_of_le hlt (le_of_eq ?_)
      push_cast
      ring
    rw [listToPoly_cons]
    refine lt_of_le_of_lt (Polynomial.degree_add_le _ _) ?_
    rw [List.length_cons]
    exact max_lt h1 h2

/-- Lagrange interpolation through distinct nodes, evaluated at zero, in
list form: for a polynomial of degree below the number of nodes, the sum
over the nodes x of (Π over the other nodes y of y·(y−x)⁻¹) · p(x)
recovers p(0). -/
theorem lagrange_list_sum_eval_zero (q : ℕ) [Fact (Nat.Prime q)]
    (L : List (ZMod q)) (hL : L.Nodup) (p : Polynomial (ZMod q))
    (hdeg : p.degree < (L.length : WithBot ℕ)) :
    (L.map (fun x =>
      ((L.filter (fun y => decide (y ≠ x))).map
        (fun y => y * (y - x)⁻¹)).prod * p.eval x)).sum = p.eval 0 := by
  classical
  have hcard : L.toFinset.card = L.length := List.toFinset_card_of_nodup hL
  have hinj : Set.InjOn id (↑L.toFinset : Set (ZMod q)) := fun a _ b _ h => h
  have hdeg2 : p.degree < L.toFinset.card := by
    rw [hcard]
    exact_mod_cast hdeg
  have hinterp := Lagrange.eq_interpolate hinj hdeg2
  have h0 : p.eval 0 = ∑ i ∈ L.toFinset,
      p.eval i * (Lagrange.basis L.toFinset id i).eval 0 := by
    conv_lhs => rw [hinterp]
    rw [Lagrange.interpolate_apply, Polynomial.eval_finset_sum]
    refine Finset.sum_congr rfl (fun i _ => ?_)
    rw [Polynomial.eval_mul, Polynomial.eval_C]
    rfl
  have hbasis : ∀ x ∈ L.toFinset,
      (Lagrange.basis L.toFinset id x).eval 0 =
        ((L.filter (fun y => decide (y ≠ x))).map
          (fun y => y * (y - x)⁻¹)).prod := by
    intro x hx
    rw [Lagrange.basis, Polynomial.eval_prod]
    have hnod : (L.filter (fun y => decide (y ≠ x))).Nodup := hL.filter _
    rw [← List.prod_toFinset _ hnod]
    have hset : (L.filter (fun y => decide (y ≠ x))).toFinset =
        L.toFinset.erase x := by
      rw [List.toFinset_filter]
      ext a
      simp [Finset.mem_filter, Finset.mem_erase, and_comm]
    rw [hset]
    refine Finset.prod_congr rfl (fun y hy => ?_)
    have hyx : y ≠ x := (Finset.mem_erase.mp hy).1
    have hxy0 : x - y ≠ 0 := sub_ne_zero_of_ne hyx.symm
    have hyx0 : y - x ≠ 0 := sub_ne_zero_of_ne hyx
    rw [Lagrange.basisDivisor]
    rw [Polynomial.eval_mul, Polynomial.eval_C, Polynomial.eval_sub,
      Polynomial.eval_X, Polynomial.eval_C, zero_sub]
    field_simp
    ring
  rw [← List.sum_toFinset _ hL, h0]
  refine Finset.sum_congr rfl (fun i hi => ?_)
  rw [hbasis i hi]
  ring

/-- C4: for threshold n = (number of random coefficients) + 1 and any n
partial decryptions {index i, value = mu·P(i)} taken at pairwise-distinct
indices drawn from 1..m (any size-n subset, not only 1..n), Lagrange
interpolation in the exponent recovers mu·secret exactly, so
ThresholdAdjudicate agrees with the single-party Adjudicate with exact
point equality. -/
theorem threshold_adjudicate_matches (q : ℕ) [Fact (Nat.Prime q)]
    (n m : ℕ) (hm : m < q) (secret : ZMod q) (cs : List (ZMod q))
    (hn : n = cs.length + 1) (idxs : List ℕ) (hlen : idxs.length = n)
    (hnd : idxs.Nodup) (hrange : ∀ i ∈ idxs, 1 ≤ i ∧ i ≤ m)
    (vs : VESSignature q) :
    ThresholdAdjudicate n vs (idxs.map (fun i =>
      ⟨((i : ℕ) : ZMod q),
        vs.mu.smul (FrEvaluatePolynomial (secret :: cs) ((i : ℕ) : ZMod q))⟩)) =
      Except.ok (Adjudicate vs secret) := by
  classical
  haveI : NeZero q := ⟨(Fact.out (p := Nat.Prime q)).pos.ne'⟩
  have hLnd : (idxs.map (fun i => ((i : ℕ) : ZMod q))).Nodup := by
    refine hnd.map_on ?_
    intro x hx y hy hxy
    have hx2 : x < q := lt_of_le_of_lt (hrange x hx).2 hm
    have hy2 : y < q := lt_of_le_of_lt (hrange y hy).2 hm
    have hv := congrArg ZMod.val hxy
    rwa [ZMod.val_cast_of_lt hx2, ZMod.val_cast_of_lt hy2] at hv
  have hentries : idxs.map (fun i =>
      (⟨((i : ℕ) : ZMod q),
        vs.mu.smul (FrEvaluatePolynomial (secret :: cs) ((i : ℕ) : ZMod q))⟩ :
        AdjShare q)) =
      (idxs.map (fun i => ((i : ℕ) : ZMod q))).map (fun x =>
        (⟨x, vs.mu.smul (FrEvaluatePolynomial (secret :: cs) x)⟩ :
          AdjShare q)) := by
    rw [List.map_map]
    rfl
  rw [hentries]
  generalize hLdef : idxs.map (fun i => ((i : ℕ) : ZMod q)) = L at hLnd
  have hLlen : L.length = n := by
    rw [← hLdef, List.length_map, hlen]
  have hginj : Function.Injective (fun x =>
      (⟨x, vs.mu.smul (FrEvaluatePolynomial (secret :: cs) x)⟩ :
        AdjShare q)) := by
    intro a b hab
    exact congrArg AdjShare.index hab
  have hidx : (L.map (fun x =>
      (⟨x, vs.mu.smul (FrEvaluatePolynomial (secret :: cs) x)⟩ :
        AdjShare q))).map (fun e => e.index) = L := by
    rw [List.map_map]
    exact List.map_id L
  have hIncons : hasInconsistent (L.map (fun x =>
      (⟨x, vs.mu.smul (FrEvaluatePolynomial (secret :: cs) x)⟩ :
        AdjShare q))) = false := by
    refine hasInconsistent_eq_false _ ?_
    rw [hidx]
    exact hLnd
  have hEnod : (L.map (fun x =>
      (⟨x, vs.mu.smul (FrEvaluatePolynomial (secret :: cs) x)⟩ :
        AdjShare q))).Nodup := hLnd.map hginj
  have hEdedup : (L.map (fun x =>
      (⟨x, vs.mu.smul (FrEvaluatePolynomial (secret :: cs) x)⟩ :
        AdjShare q))).dedup = L.map (fun x =>
      (⟨x, vs.mu.smul (FrEvaluatePolynomial (secret :: cs) x)⟩ :
        AdjShare q)) := List.dedup_eq_self.mpr hEnod
  have hcount : (((L.map (fun x =>
      (⟨x, vs.mu.smul (FrEvaluatePolynomial (secret :: cs) x)⟩ :
        AdjShare q))).map (fun e => e.index)).dedup).length = n := by
    rw [hidx, List.dedup_eq_self.mpr hLnd, hLlen]
  have hcoeff : ∀ x, lagrangeCoeffAt (L.map (fun y =>
      (⟨y, vs.mu.smul (FrEvaluatePolynomial (secret :: cs) y)⟩ :
        AdjShare q)))
      (⟨x, vs.mu.smul (FrEvaluatePolynomial (secret :: cs) x)⟩ :
        AdjShare q) =
      ((L.filter (fun y => decide (y ≠ x))).map
        (fun y => y * (y - x)⁻¹)).prod := by
    intro x
    rw [lagrangeCoeffAt]
    rw [filter_of_map]
    rw [List.map_map]
    rfl
  have hsum : pointListSum ((L.map (fun x =>
      (⟨x, vs.mu.smul (FrEvaluatePolynomial (secret :: cs) x)⟩ :
        AdjShare q))).map (fun e =>
        e.value.smul (lagrangeCoeffAt (L.map (fun y =>
          (⟨y, vs.mu.smul (FrEvaluatePolynomial (secret :: cs) y)⟩ :
            AdjShare q))) e))) = vs.mu.smul secret := by
    refine G2Point.ext_log _ _ ?_
    rw [pointListSum_log, List.map_map, List.map_map]
    have hmapeq : List.map ((G2Point.log ∘ fun e =>
        e.value.smul (lagrangeCoeffAt (L.map (fun y =>
          (⟨y, vs.mu.smul (FrEvaluatePolynomial (secret :: cs) y)⟩ :
            AdjShare q))) e)) ∘ fun x =>
        (⟨x, vs.mu.smul (FrEvaluatePolynomial (secret :: cs) x)⟩ :
          AdjShare q)) L =
      List.map (fun x =>
        (((L.filter (fun y => decide (y ≠ x))).map
          (fun y => y * (y - x)⁻¹)).prod *
          (listToPoly (secret :: cs)).eval x) * vs.mu.log) L := by
      refine List.map_congr_left ?_
      intro x _
      simp only [Function.comp]
      rw [hcoeff x]
      simp only [G2Point.smul, listToPoly_eval]
      ring
    rw [hmapeq, List.sum_map_mul_right]
    rw [lagrange_list_sum_eval_zero q L hLnd (listToPoly (secret :: cs))
      (by rw [hLlen, hn]; exact listToPoly_degree_lt (secret :: cs))]
    rw [listToPoly_eval_zero]
    simp [G2Point.smul]
  rw [ThresholdAdjudicate, Reconstruct, hIncons]
  simp only [Bool.false_eq_true, if_false, hcount, lt_irrefl, if_neg,
    not_false_iff]
  rw [hEdedup, hsum]
  rfl

/-- Witness for C4 over the prime field with q = 3: threshold 2, shares at
indices 1 and 2 of the polynomial 2 + x, partial decryptions against
mu = g2; threshold adjudication returns exactly the single-party
Adjudicate output. -/
theorem threshold_adjudicate_matches_witness :
    ThresholdAdjudicate (q := 3) 2 ⟨⟨1⟩, ⟨1⟩⟩ (([1, 2] : List ℕ).map
      (fun i => ⟨((i : ℕ) : ZMod 3),
        (VESSignature.mk (q := 3) ⟨1⟩ ⟨1⟩).mu.smul
          (FrEvaluatePolynomial (2 :: [1]) ((i : ℕ) : ZMod 3))⟩)) =
      Except.ok (Adjudicate ⟨⟨1⟩, ⟨1⟩⟩ 2) := by
  have hm : (2 : ℕ) < 3 := by norm_num
  have hnd : ([1, 2] : List ℕ).Nodup := by decide
  have hrange : ∀ i ∈ ([1, 2] : List ℕ), 1 ≤ i ∧ i ≤ 2 := by decide
  exact threshold_adjudicate_matches 3 2 2 hm 2 [1] rfl [1, 2] rfl hnd
    hrange ⟨⟨1⟩, ⟨1⟩⟩

/-- C7: Split with threshold n and m total shares, given the n−1
externally drawn random coefficients, uses the sharing polynomial whose
constant term is the secret and whose coefficient list has length n,
returns exactly m shares, share k+1 (for each position k < m) being the
polynomial evaluated at k+1, and every produced share has its index in
1..m, whose image in the scalar field is nonzero — the polynomial is
never evaluated at x = 0 to produce a share. -/
theorem split_evaluates_at_one_to_m (q n m : ℕ) (hm : m < q)
    (hn : 1 ≤ n) (hnm : n ≤ m) (secret : ZMod q)
    (randCoeffs : List (ZMod q)) (hr : randCoeffs.length = n - 1) :
    (Split secret randCoeffs m).length = m ∧
    (secret :: randCoeffs).length = n ∧
    FrEvaluatePolynomial (secret :: randCoeffs) 0 = secret ∧
    (∀ k, k < m → (Split secret randCoeffs m)[k]? =
      some ⟨k + 1, FrEvaluatePolynomial (secret :: randCoeffs)
        ((k + 1 : ℕ) : ZMod q)⟩) ∧
    (∀ sh ∈ Split secret randCoeffs m,
      1 ≤ sh.index ∧ sh.index ≤ m ∧ ((sh.index : ℕ) : ZMod q) ≠ 0) := by
  refine ⟨?_, ?_, ?_, ?_, ?_⟩
  · simp [Split]
  · simp only [List.length_cons, hr]
    omega
  · show secret + 0 * FrEvaluatePolynomial randCoeffs 0 = secret
    ring
  · intro k hk
    simp [Split, List.getElem?_map, List.getElem?_range hk]
  · intro sh hsh
    simp only [Split, List.mem_map, List.mem_range] at hsh
    obtain ⟨i, hi, hieq⟩ := hsh
    have hidx : sh.index = i + 1 := by rw [← hieq]
    refine ⟨by omega, by omega, ?_⟩
    rw [hidx]
    intro hzero
    rw [ZMod.natCast_zmod_eq_zero_iff_dvd] at hzero
    have hle : q ≤ i + 1 := Nat.le_of_dvd (Nat.succ_pos i) hzero
    omega

/-- Witness for C7: splitting secret 2 with threshold 2 into 3 shares
over the field with q = 5, using random coefficient 3. -/
theorem split_evaluates_at_one_to_m_witness :
    (Split (q := 5) 2 [3] 3).length = 3 ∧
    FrEvaluatePolynomial (q := 5) (2 :: [3]) 0 = 2 := by
  have hm : (3 : ℕ) < 5 := by norm_num
  have hn : (1 : ℕ) ≤ 2 := by norm_num
  have hnm : (2 : ℕ) ≤ 3 := by norm_num
  have h := split_evaluates_at_one_to_m 5 2 3 hm hn hnm 2 [3] rfl
  exact ⟨h.1, h.2.2.1⟩
